import Mathlib

/-!
Verification of the fragment-selection / junk-filtering core and the run
orchestrator of the `oraculo-libros` program (src/index.js).

Strings are modelled as `List Char`.  JavaScript regular-expression
replacements are modelled by explicit scanning functions; the two
floating-point threshold comparisons (`digits / length > 0.08` and
`shortLines / lines.length > 0.6`) are modelled by the exact rational
comparisons `100 * digits > 8 * length` and `10 * short > 6 * lines`.
`Math.random()`-driven index choices are injected as a function
`Nat → Nat`, reduced modulo the list length exactly as
`Math.floor(Math.random() * arr.length)` yields an in-range index.
`JSON.parse` (a language builtin, external to the repository) is modelled
as an abstract parse oracle carried by the environment.
-/

set_option maxRecDepth 10000

/-- The JavaScript whitespace class `\s` (the characters removed by
`String.prototype.trim`), restricted to the code points it names. -/
def isJsWs (c : Char) : Bool :=
  let n := c.toNat
  decide ((9 ≤ n ∧ n ≤ 13) ∨ n = 32 ∨ n = 160 ∨ n = 0x1680 ∨
    (0x2000 ≤ n ∧ n ≤ 0x200a) ∨ n = 0x2028 ∨ n = 0x2029 ∨ n = 0x202f ∨
    n = 0x205f ∨ n = 0x3000 ∨ n = 0xfeff)

/-- `String.prototype.toLowerCase`, modelled on the ASCII and Latin-1
ranges (the only case-carrying characters relevant to the junk hints). -/
def jsToLower (c : Char) : Char :=
  let n := c.toNat
  if 65 ≤ n ∧ n ≤ 90 then Char.ofNat (n + 32)
  else if (192 ≤ n ∧ n ≤ 222) ∧ n ≠ 215 then Char.ofNat (n + 32)
  else c

/-- `t.replace(/\r/g, " ")` : every carriage return becomes one space. -/
def replaceCR (l : List Char) : List Char :=
  l.map (fun c => if c = '\r' then ' ' else c)

def isSpaceTab (c : Char) : Bool := c = ' ' || c = '\t'

/-- Scanner for `t.replace(/[ \t]+/g, " ")`: a maximal run of spaces and
tabs is replaced by a single space.  The flag records whether the scanner
is inside a run (the replacement space already emitted). -/
def collapseSpacesAux : Bool → List Char → List Char
  | _, [] => []
  | inRun, c :: rest =>
    if isSpaceTab c then (if inRun then [] else [' ']) ++ collapseSpacesAux true rest
    else c :: collapseSpacesAux false rest

def collapseSpaces (l : List Char) : List Char := collapseSpacesAux false l

/-- What `t.replace(/\n{3,}/g, "\n\n")` emits for a pending run of `p`
newlines: runs of three or more collapse to exactly two. -/
def emitNL (p : Nat) : List Char :=
  if 3 ≤ p then ['\n', '\n'] else List.replicate p '\n'

/-- Scanner for `t.replace(/\n{3,}/g, "\n\n")`; `p` counts the pending
newlines of the current run. -/
def collapseNLAux : Nat → List Char → List Char
  | p, [] => emitNL p
  | p, c :: rest =>
    if c = '\n' then collapseNLAux (p + 1) rest
    else emitNL p ++ c :: collapseNLAux 0 rest

def collapseNewlines (l : List Char) : List Char := collapseNLAux 0 l

/-- `String.prototype.trim`: drop JS whitespace from both ends. -/
def trimJs (l : List Char) : List Char :=
  ((l.dropWhile isJsWs).reverse.dropWhile isJsWs).reverse

/-- `normalizeText` from src/index.js lines 41-47: replace carriage
returns, collapse space/tab runs, collapse newline runs of three or more
to two, then trim. -/
def normalizeText (t : List Char) : List Char :=
  trimJs (collapseNewlines (collapseSpaces (replaceCR t)))

/-- Whether `pat` is a leading subsequence of the second list
(`String.prototype.startsWith`, used to implement `includes`). -/
def startsWithChars : List Char → List Char → Bool
  | [], _ => true
  | _ :: _, [] => false
  | p :: ps, c :: cs => decide (p = c) && startsWithChars ps cs

/-- `s.includes(pat)` : substring occurrence test. -/
def jsIncludes (pat : List Char) : List Char → Bool
  | [] => startsWithChars pat []
  | c :: rest => startsWithChars pat (c :: rest) || jsIncludes pat rest

/-- `s.split(sep)` for a single-character separator. -/
def splitOnChar (sep : Char) : List Char → List (List Char)
  | [] => [[]]
  | c :: rest =>
    if c = sep then [] :: splitOnChar sep rest
    else
      match splitOnChar sep rest with
      | [] => [[c]]
      | h :: t => (c :: h) :: t

/-- `s.split("\n\n")` : split on each leftmost non-overlapping occurrence
of two consecutive newlines. -/
def splitNN : List Char → List (List Char)
  | '\n' :: '\n' :: rest => [] :: splitNN rest
  | c :: rest =>
    match splitNN rest with
    | [] => [[c]]
    | h :: t => (c :: h) :: t
  | [] => [[]]

/-- `arr.join("\n\n")`. -/
def joinSep : List (List Char) → List Char
  | [] => []
  | [p] => p
  | p :: q :: rest => p ++ '\n' :: '\n' :: joinSep (q :: rest)

/-- The fixed front-matter marker phrases of `looksLikeJunk`. -/
def junkHints : List (List Char) :=
  ["isbn", "copyright", "todos los derechos reservados", "índice", "indice",
   "tabla", "capítulo", "capitulo", "contenido", "contents"].map String.toList

/-- Count of decimal digit characters (the matches of `/\d/g`). -/
def digitCount (l : List Char) : Nat := (l.filter Char.isDigit).length

/-- `fragment.split("\n").filter(Boolean)` : the non-empty lines. -/
def linesOf (fragment : List Char) : List (List Char) :=
  (splitOnChar '\n' fragment).filter (fun l => !l.isEmpty)

/-- The line-shape heuristic of `looksLikeJunk` (src/index.js lines
74-77): at least 8 non-empty lines of which more than 60% have trimmed
length under 30.  The float comparison `short/lines > 0.6` is modelled
exactly as `10 * short > 6 * lines`. -/
def lineShapeRule (fragment : List Char) : Bool :=
  let lines := linesOf fragment
  let short := (lines.filter (fun l => decide ((trimJs l).length < 30))).length
  decide (8 ≤ lines.length) && decide (6 * lines.length < 10 * short)

/-- `looksLikeJunk` from src/index.js lines 50-80: length under 220, a
front-matter keyword in the lowercased fragment, digit density above
0.08, or the line-shape heuristic, each short-circuiting to `junk`. -/
def looksLikeJunk (fragment : List Char) : Bool :=
  let s := fragment.map jsToLower
  if fragment.length < 220 then true
  else if junkHints.any (fun h => jsIncludes h s) then true
  else if 8 * fragment.length < 100 * digitCount fragment then true
  else lineShapeRule fragment

/-- The paragraph list of `pickFragment`:
`text.split("\n\n").map(p => p.trim()).filter(Boolean)`. -/
def parasOf (text : List Char) : List (List Char) :=
  ((splitNN text).map trimJs).filter (fun p => !p.isEmpty)

/-- `[paras[i], paras[i+1], paras[i+2]].filter(Boolean).join("\n\n")` :
out-of-range accesses are dropped, as are empty strings. -/
def windowAt (paras : List (List Char)) (i : Nat) : List Char :=
  joinSep ((([paras[i]?, paras[i + 1]?, paras[i + 2]?].filterMap id).filter
    (fun p => !p.isEmpty)))

/-- The 12-attempt sampling loop of `pickFragment`; `choices attempt` is
the value drawn by `Math.floor(Math.random() * paras.length)`, taken
modulo `paras.length` so that it is in range. -/
def pickLoop (paras : List (List Char)) (choices : Nat → Nat) :
    Nat → Nat → Option (List Char)
  | _, 0 => none
  | attempt, fuel + 1 =>
    let i := choices attempt % paras.length
    let clipped := (windowAt paras i).take 1600
    if looksLikeJunk clipped then pickLoop paras choices (attempt + 1) fuel
    else some clipped

/-- `pickFragment` from src/index.js lines 83-100. -/
def pickFragment (choices : Nat → Nat) (fullText : List Char) :
    Option (List Char) :=
  let text := normalizeText fullText
  if text.length < 800 then none
  else
    let paras := parasOf text
    if paras.length < 5 then none
    else pickLoop paras choices 0 12

/-! ## Orchestrator (src/index.js lines 110-239)

The model response is a raw string; `JSON.parse` is a JavaScript builtin,
so it is carried by the environment as an abstract oracle
`parseJson : List Char → Option JsonObj`, where `none` covers both a
parse failure (`safeJsonParse` returning `null`) and a parsed value that
is not an object.  Randomness, I/O and the network are injected through
`Env`; an operation that can throw returns `Except (List Char) _` with
the error message on the left.  Side effects are recorded as `Event`s. -/

/-- A JSON value as relevant to the `cita` / `reflexion` fields. -/
inductive JVal
  | jnull
  | jbool (b : Bool)
  | jnum (n : Int)
  | jstr (s : List Char)
deriving DecidableEq

/-- JavaScript truthiness of a JSON value. -/
def JVal.truthy : JVal → Bool
  | .jnull => false
  | .jbool b => b
  | .jnum n => decide (n ≠ 0)
  | .jstr s => !s.isEmpty

/-- Template-string rendering of a JSON value. -/
def jvalText : JVal → List Char
  | .jnull => "null".toList
  | .jbool b => if b then "true".toList else "false".toList
  | .jnum n => (toString n).toList
  | .jstr s => s

/-- The parsed model reply as the orchestrator reads it: the `cita` and
`reflexion` fields, each possibly absent. -/
structure JsonObj where
  cita : Option JVal
  reflexion : Option JVal
deriving DecidableEq

/-- The truthiness test `json?.cita` of src/index.js line 204. -/
def citaTruthy (j : JsonObj) : Bool :=
  match j.cita with
  | some v => v.truthy
  | none => false

/-- The `cita` value used on the success path (guarded by `citaTruthy`). -/
def citaVal (j : JsonObj) : JVal := j.cita.getD JVal.jnull

/-- Template-string rendering of a possibly-absent field
(`undefined` interpolates as the string "undefined"). -/
def optJText : Option JVal → List Char
  | some v => jvalText v
  | none => "undefined".toList

/-- `path.basename` for a slash-separated path. -/
def jsBasename (p : List Char) : List Char :=
  (p.reverse.takeWhile (fun c => decide (c ≠ '/'))).reverse

def SKIPresp : List Char := "SKIP".toList
def oraculoTitle : List Char := "Oráculo".toList
def successTitle : List Char := "📚 Oráculo de tus Libros".toList
def errorTitle : List Char := "Oráculo - Error".toList

def noPdfsMsg (dir : List Char) : List Char :=
  "No encontré PDFs en: ".toList ++ dir

def noFragmentMsg (book : List Char) : List Char :=
  "Hoy no pude sacar un fragmento decente de: ".toList ++ book

def frontMatterMsg (book : List Char) : List Char :=
  "Me tocó puro “front matter” hoy 😅 (".toList ++ book ++ ")".toList

def successMsg (j : JsonObj) (book filePath : List Char) : List Char :=
  jvalText (citaVal j) ++ "\n\n".toList ++ optJText j.reflexion ++
    "\n\n(".toList ++ book ++ ")\n\nGuardado en: ".toList ++ filePath

/-- A side effect of one run: a desktop notification, or an append of a
quote entry to the daily log file. -/
inductive Event
  | notify (title message : List Char)
  | fileAppend (filePath : List Char) (cita : JVal) (reflexion : Option JVal)
      (book : List Char)
deriving DecidableEq

/-- The ambient world of one run.  `askModel fragment i` is the reply of
`askGroqForQuote({ bookName, fragment })` on attempt `i` (or a thrown
network error); `appendLog` is `saveQuoteToDailyMd` returning the log
file path (or a thrown I/O error); `pickIndex` and `fragChoices` inject
`Math.random`. -/
structure Env where
  booksDir : List Char
  listPdfs : Except (List Char) (List (List Char))
  pickIndex : Nat
  extractText : List Char → Except (List Char) (List Char)
  fragChoices : Nat → Nat
  askModel : List Char → Nat → Except (List Char) (List Char)
  parseJson : List Char → Option JsonObj
  appendLog : Except (List Char) (List Char)

/-- The model-query loop of `runOnce` (src/index.js lines 198-218):
`for (let i = 0; i < 6; i++)`, invoked below with fuel 6.  A `SKIP`
reply, a parse failure, and a falsy `cita` each advance to the next
attempt with no event; a truthy `cita` appends to the log and raises the
success notification.  The same `fragment` is passed to every attempt. -/
def queryLoop (env : Env) (bookName fragment : List Char) :
    Nat → Nat → List Event × Except (List Char) Bool
  | _, 0 => ([], .ok false)
  | i, fuel + 1 =>
    match env.askModel fragment i with
    | .error e => ([], .error e)
    | .ok out =>
      if out = SKIPresp then queryLoop env bookName fragment (i + 1) fuel
      else
        match env.parseJson out with
        | none => queryLoop env bookName fragment (i + 1) fuel
        | some j =>
          if citaTruthy j then
            match env.appendLog with
            | .error e => ([], .error e)
            | .ok fp =>
              ([.fileAppend fp (citaVal j) j.reflexion bookName,
                .notify successTitle (successMsg j bookName fp)], .ok true)
          else queryLoop env bookName fragment (i + 1) fuel

/-- The body of `runOnce` inside the `try` (src/index.js lines 176-220):
accumulated events, and `.error` exactly when some operation threw. -/
def runBody (env : Env) : List Event × Except (List Char) Unit :=
  match env.listPdfs with
  | .error e => ([], .error e)
  | .ok pdfs =>
    if pdfs.length = 0 then
      ([.notify oraculoTitle (noPdfsMsg env.booksDir)], .ok ())
    else
      let chosen := pdfs.getD (env.pickIndex % pdfs.length) []
      let bookName := jsBasename chosen
      match env.extractText chosen with
      | .error e => ([], .error e)
      | .ok fullText =>
        match pickFragment env.fragChoices fullText with
        | none => ([.notify oraculoTitle (noFragmentMsg bookName)], .ok ())
        | some fragment =>
          match queryLoop env bookName fragment 0 6 with
          | (evs, .error e) => (evs, .error e)
          | (evs, .ok true) => (evs, .ok ())
          | (evs, .ok false) =>
            (evs ++ [.notify oraculoTitle (frontMatterMsg bookName)], .ok ())

/-- `runOnce` (src/index.js lines 175-224): the whole body runs inside
`try`; `catch` turns any thrown error into an error notification. -/
def runOnce (env : Env) : List Event :=
  match runBody env with
  | (evs, .ok _) => evs
  | (evs, .error e) => evs ++ [.notify errorTitle e]

/-- The scheduler (src/index.js lines 226-239): `runOnce` fires on every
tick; tick `k` runs in the world `envs k`. -/
def schedulerTrace (envs : Nat → Env) (n : Nat) : List (List Event) :=
  (List.range n).map (fun k => runOnce (envs k))

/-- An attempt of the model-query loop that advances to the next
attempt: the reply arrived and was `SKIP`, unparseable, or had a falsy
`cita` field. -/
def advances (env : Env) (fragment : List Char) (i : Nat) : Prop :=
  ∃ out, env.askModel fragment i = .ok out ∧
    (out = SKIPresp ∨ env.parseJson out = none ∨
     ∃ j, env.parseJson out = some j ∧ citaTruthy j = false)

/-! ## Concrete test data for the claim witnesses -/

/-- A 200-character prose-like paragraph. -/
def witPara : List Char := List.replicate 200 'a'

/-- A 1008-character document of 5 paragraphs. -/
def witDocC1 : List Char := joinSep [witPara, witPara, witPara, witPara, witPara]

/-- The 3-paragraph window starting at paragraph 0 of `witDocC1`. -/
def witFragC1 : List Char := joinSep [witPara, witPara, witPara]

/-- A document of 799 normalized characters. -/
def witDocC3a : List Char := List.replicate 799 'a'

/-- A 900-character document with only 4 paragraphs. -/
def witDocC3b : List Char :=
  joinSep [List.replicate 228 'a', List.replicate 222 'a',
    List.replicate 222 'a', List.replicate 222 'a']

/-- A 170-character paragraph flagged as front matter ("copyright"). -/
def cpParaC4 : List Char := "copyright ".toList ++ List.replicate 160 'b'

/-- An 858-character document whose only 5 paragraphs all contain
"copyright". -/
def witDocC4 : List Char := joinSep [cpParaC4, cpParaC4, cpParaC4, cpParaC4, cpParaC4]

/-- 10 lines of 25 characters each, newline separated. -/
def witFragC6a : List Char :=
  List.intercalate ['\n'] (List.replicate 10 (List.replicate 25 'a'))

/-- The same 10 lines grown to 40 characters each. -/
def witFragC6b : List Char :=
  List.intercalate ['\n'] (List.replicate 10 (List.replicate 40 'a'))

/-- A world where every model reply is the skip sentinel. -/
def envSkip : Env :=
  { booksDir := [], listPdfs := .ok [], pickIndex := 0,
    extractText := fun _ => .ok [], fragChoices := fun _ => 0,
    askModel := fun _ _ => .ok SKIPresp, parseJson := fun _ => none,
    appendLog := .ok [] }

/-- A parsed reply with a truthy quote field. -/
def jOK : JsonObj := ⟨some (JVal.jstr ['q']), some (JVal.jstr ['r'])⟩

/-- A world where the first model reply parses to `jOK`. -/
def envOK : Env :=
  { envSkip with
    askModel := fun _ _ => .ok ['o', 'k']
    parseJson := fun _ => some jOK
    appendLog := .ok ['l', 'o', 'g'] }

/-- A parsed reply whose quote field is the empty string. -/
def jEmptyCita : JsonObj := ⟨some (JVal.jstr []), none⟩

/-- A world where every model reply parses to `jEmptyCita`. -/
def env9 : Env :=
  { envSkip with
    askModel := fun _ _ => .ok ['x']
    parseJson := fun _ => some jEmptyCita }

/-! ## Output invariants of the normalizer -/

/-- `l` contains no run of three or more consecutive newlines. -/
def noTriple (l : List Char) : Prop :=
  ∀ u v : List Char, l ≠ u ++ '\n' :: '\n' :: '\n' :: v

/-- `l` contains no two adjacent space-or-tab characters. -/
def noAdjST (l : List Char) : Prop :=
  ∀ (u : List Char) (a b : Char) (v : List Char),
    l = u ++ a :: b :: v → ¬(isSpaceTab a = true ∧ isSpaceTab b = true)

theorem notWs_ne {c : Char} (h : isJsWs c = false) :
    c ≠ '\r' ∧ c ≠ '\n' ∧ c ≠ '\t' ∧ c ≠ ' ' := by
  refine ⟨?_, ?_, ?_, ?_⟩ <;> rintro rfl <;> exact absurd h (by decide)

theorem notWs_notST {c : Char} (h : isJsWs c = false) : isSpaceTab c = false := by
  obtain ⟨-, -, ht, hs⟩ := notWs_ne h
  simp [isSpaceTab, ht, hs]

theorem dropWhile_decomp (p : Char → Bool) (l : List Char) :
    ∃ u, l = u ++ l.dropWhile p :=
  ⟨l.takeWhile p, (List.takeWhile_append_dropWhile p l).symm⟩

theorem trimJs_decomp (l : List Char) : ∃ u v, l = u ++ trimJs l ++ v := by
  obtain ⟨u, hu⟩ := dropWhile_decomp isJsWs l
  obtain ⟨w, hw⟩ := dropWhile_decomp isJsWs (l.dropWhile isJsWs).reverse
  refine ⟨u, w.reverse, ?_⟩
  have h2 : l.dropWhile isJsWs = trimJs l ++ w.reverse := by
    have := congrArg List.reverse hw
    simpa [trimJs] using this
  conv_lhs => rw [hu, h2]
  rw [List.append_assoc]

theorem mem_trimJs {c : Char} {l : List Char} (h : c ∈ trimJs l) : c ∈ l := by
  obtain ⟨u, v, hl⟩ := trimJs_decomp l
  rw [hl]
  simp [h]

theorem dropWhile_head_false {p : Char → Bool} :
    ∀ {l : List Char} {c : Char} {m : List Char},
    l.dropWhile p = c :: m → p c = false := by
  intro l
  induction l with
  | nil => intro c m h; simp at h
  | cons d rest ih =>
    intro c m h
    rw [List.dropWhile_cons] at h
    by_cases hd : p d = true
    · rw [if_pos hd] at h; exact ih h
    · rw [if_neg hd] at h
      obtain ⟨rfl, -⟩ := List.cons.injEq .. ▸ h
      simpa using hd

theorem trimJs_head {l : List Char} {c : Char} {m : List Char}
    (h : trimJs l = c :: m) : isJsWs c = false := by
  obtain ⟨w, hw⟩ := dropWhile_decomp isJsWs (l.dropWhile isJsWs).reverse
  have h2 : l.dropWhile isJsWs = trimJs l ++ w.reverse := by
    have := congrArg List.reverse hw
    simpa [trimJs] using this
  rw [h] at h2
  exact dropWhile_head_false (by simpa using h2)

theorem trimJs_last {l : List Char} {c : Char} {m : List Char}
    (h : trimJs l = m ++ [c]) : isJsWs c = false := by
  have hD : (l.dropWhile isJsWs).reverse.dropWhile isJsWs = c :: m.reverse := by
    have := congrArg List.reverse h
    simpa [trimJs] using this
  exact dropWhile_head_false hD

theorem mem_spacesAux {c : Char} :
    ∀ (s : Bool) (l : List Char), c ∈ collapseSpacesAux s l → c = ' ' ∨ c ∈ l := by
  intro s l
  induction l generalizing s with
  | nil => intro h; simp [collapseSpacesAux] at h
  | cons d rest ih =>
    intro h
    simp only [collapseSpacesAux] at h
    by_cases hd : isSpaceTab d = true
    · rw [if_pos hd] at h
      rcases List.mem_append.1 h with h1 | h2
      · left
        rcases s with - | -
        · simpa using h1
        · simp at h1
      · rcases ih true h2 with h' | h'
        · exact Or.inl h'
        · exact Or.inr (List.mem_cons_of_mem _ h')
    · rw [if_neg hd] at h
      rcases List.mem_cons.1 h with rfl | h2
      · exact Or.inr (List.mem_cons_self _ _)
      · rcases ih false h2 with h' | h'
        · exact Or.inl h'
        · exact Or.inr (List.mem_cons_of_mem _ h')

theorem spacesAux_noTab {c : Char} :
    ∀ (s : Bool) (l : List Char), c ∈ collapseSpacesAux s l → c ≠ '\t' := by
  intro s l
  induction l generalizing s with
  | nil => intro h; simp [collapseSpacesAux] at h
  | cons d rest ih =>
    intro h
    simp only [collapseSpacesAux] at h
    by_cases hd : isSpaceTab d = true
    · rw [if_pos hd] at h
      rcases List.mem_append.1 h with h1 | h2
      · rcases s with - | -
        · simp at h1; rw [h1]; decide
        · simp at h1
      · exact ih true h2
    · rw [if_neg hd] at h
      rcases List.mem_cons.1 h with rfl | h2
      · intro hc; rw [hc] at hd; exact hd (by decide)
      · exact ih false h2

theorem emitNL_mem {x : Char} {p : Nat} (h : x ∈ emitNL p) : x = '\n' := by
  unfold emitNL at h
  split at h
  · simpa using h
  · exact List.eq_of_mem_replicate h

theorem emitNL_len (p : Nat) : (emitNL p).length ≤ 2 := by
  unfold emitNL
  split
  · simp
  · simp; omega

theorem mem_nlAux {c : Char} :
    ∀ (p : Nat) (l : List Char), c ∈ collapseNLAux p l → c = '\n' ∨ c ∈ l := by
  intro p l
  induction l generalizing p with
  | nil => intro h; exact Or.inl (emitNL_mem (by simpa [collapseNLAux] using h))
  | cons d rest ih =>
    intro h
    simp only [collapseNLAux] at h
    by_cases hd : d = '\n'
    · rw [if_pos hd] at h
      rcases ih (p + 1) h with h' | h'
      · exact Or.inl h'
      · exact Or.inr (List.mem_cons_of_mem _ h')
    · rw [if_neg hd] at h
      rcases List.mem_append.1 h with h1 | h2
      · exact Or.inl (emitNL_mem h1)
      · rcases List.mem_cons.1 h2 with rfl | h3
        · exact Or.inr (List.mem_cons_self _ _)
        · rcases ih 0 h3 with h' | h'
          · exact Or.inl h'
          · exact Or.inr (List.mem_cons_of_mem _ h')

theorem noAdjST_nil : noAdjST [] := by
  intro u a b v h
  cases u <;> simp at h

theorem noAdjST_middle {u m v : List Char} (h : noAdjST (u ++ m ++ v)) :
    noAdjST m := by
  intro a x y b hm
  exact h (u ++ a) x y (b ++ v) (by rw [hm]; simp)

theorem noAdjST_tail {c : Char} {l : List Char} (h : noAdjST (c :: l)) :
    noAdjST l :=
  noAdjST_middle (u := [c]) (v := []) (by simpa using h)

theorem noTriple_middle {u m v : List Char} (h : noTriple (u ++ m ++ v)) :
    noTriple m := by
  intro a b hm
  exact h (u ++ a) (b ++ v) (by rw [hm]; simp)

theorem noTriple_tail {c : Char} {l : List Char} (h : noTriple (c :: l)) :
    noTriple l :=
  noTriple_middle (u := [c]) (v := []) (by simpa using h)

theorem noTriple_of_short {l : List Char} (h : l.length < 3) : noTriple l := by
  intro u v heq
  have := congrArg List.length heq
  simp at this
  omega

theorem noAdjST_of_all {l : List Char}
    (h : ∀ c ∈ l, isSpaceTab c = false) : noAdjST l := by
  intro u a b v hl
  rintro ⟨ha, -⟩
  have hm : a ∈ l := by rw [hl]; simp
  rw [h a hm] at ha
  exact Bool.false_ne_true ha

theorem noAdjST_cons {c : Char} {l : List Char} (h1 : noAdjST l)
    (h2 : ∀ d t, l = d :: t → ¬(isSpaceTab c = true ∧ isSpaceTab d = true)) :
    noAdjST (c :: l) := by
  intro u a b v huv
  cases u with
  | nil =>
    simp only [List.nil_append, List.cons.injEq] at huv
    obtain ⟨rfl, rfl⟩ := huv
    exact h2 b v rfl
  | cons e u' =>
    simp only [List.cons_append, List.cons.injEq] at huv
    exact h1 u' a b v huv.2

theorem noAdjST_append_allNL {e m : List Char} (he : ∀ x ∈ e, x = '\n')
    (hm : noAdjST m) : noAdjST (e ++ m) := by
  intro u a b v h
  rcases List.append_eq_append_iff.1 h with ⟨w, hw1, hw2⟩ | ⟨w, hw1, hw2⟩
  · exact hm w a b v hw2
  · cases w with
    | nil =>
      simp at hw2
      exact hm [] a b v (by simpa using hw2.symm)
    | cons z w' =>
      rintro ⟨ha, -⟩
      simp only [List.cons_append, List.cons.injEq] at hw2
      have hz : z ∈ e := by rw [hw1]; simp
      rw [hw2.1, he z hz] at ha
      exact absurd ha (by decide)

theorem noTriple_emit_cons {e m : List Char} {c : Char}
    (he : ∀ x ∈ e, x = '\n') (hlen : e.length ≤ 2) (hc : c ≠ '\n')
    (hm : noTriple m) : noTriple (e ++ c :: m) := by
  intro u v h
  rcases List.append_eq_append_iff.1 h with ⟨w, hw1, hw2⟩ | ⟨w, hw1, hw2⟩
  · cases w with
    | nil =>
      simp only [List.nil_append, List.cons.injEq] at hw2
      exact hc hw2.1
    | cons z w' =>
      simp only [List.cons_append, List.cons.injEq] at hw2
      exact hm w' v hw2.2
  · match w, hw2 with
    | [], hw2 =>
      simp only [List.nil_append, List.cons.injEq] at hw2
      exact hc hw2.1.symm
    | [z1], hw2 =>
      simp only [List.cons_append, List.nil_append, List.cons.injEq] at hw2
      exact hc hw2.2.1.symm
    | [z1, z2], hw2 =>
      simp only [List.cons_append, List.nil_append, List.cons.injEq] at hw2
      exact hc hw2.2.2.1.symm
    | z1 :: z2 :: z3 :: w', hw2 =>
      have := congrArg List.length hw1
      simp at this
      omega

theorem nlAux_noTriple : ∀ (l : List Char) (p : Nat),
    noTriple (collapseNLAux p l) := by
  intro l
  induction l with
  | nil =>
    intro p
    have : (collapseNLAux p []).length ≤ 2 := by
      simpa [collapseNLAux] using emitNL_len p
    exact noTriple_of_short (by omega)
  | cons c rest ih =>
    intro p
    by_cases hc : c = '\n'
    · subst hc
      simp only [collapseNLAux, if_pos rfl]
      exact ih (p + 1)
    · simp only [collapseNLAux, if_neg hc]
      exact noTriple_emit_cons (fun x hx => emitNL_mem hx) (emitNL_len p) hc (ih 0)

theorem emitNL_pos {p : Nat} (hp : 1 ≤ p) : ∃ m, emitNL p = '\n' :: m := by
  unfold emitNL
  split
  · exact ⟨['\n'], rfl⟩
  · cases p with
    | zero => omega
    | succ q => exact ⟨List.replicate q '\n', by simp [List.replicate_succ]⟩

theorem nlAux_pos_head : ∀ (l : List Char) (p : Nat), 1 ≤ p →
    ∃ m, collapseNLAux p l = '\n' :: m := by
  intro l
  induction l with
  | nil =>
    intro p hp
    obtain ⟨m, hm⟩ := emitNL_pos hp
    exact ⟨m, by simpa [collapseNLAux] using hm⟩
  | cons c rest ih =>
    intro p hp
    by_cases hc : c = '\n'
    · subst hc
      simp only [collapseNLAux, if_pos rfl]
      exact ih (p + 1) (by omega)
    · simp only [collapseNLAux, if_neg hc]
      obtain ⟨m, hm⟩ := emitNL_pos hp
      exact ⟨m ++ c :: collapseNLAux 0 rest, by rw [hm]; rfl⟩

theorem nlAux_head_st {l : List Char} {c : Char} {m : List Char}
    (h : collapseNLAux 0 l = c :: m) (hst : isSpaceTab c = true) :
    ∃ t, l = c :: t := by
  cases l with
  | nil => simp [collapseNLAux, emitNL] at h
  | cons d rest =>
    by_cases hd : d = '\n'
    · subst hd
      rw [show collapseNLAux 0 ('\n' :: rest) = collapseNLAux 1 rest from by
        simp [collapseNLAux]] at h
      obtain ⟨m', hm'⟩ := nlAux_pos_head rest 1 (by omega)
      rw [hm'] at h
      obtain ⟨rfl, -⟩ := List.cons.injEq .. ▸ h
      exact absurd hst (by decide)
    · rw [show collapseNLAux 0 (d :: rest) = d :: collapseNLAux 0 rest from by
        simp [collapseNLAux, if_neg hd, emitNL]] at h
      obtain ⟨rfl, -⟩ := List.cons.injEq .. ▸ h
      exact ⟨rest, rfl⟩

theorem spacesAux_true_head : ∀ {l : List Char} {c : Char} {m : List Char},
    collapseSpacesAux true l = c :: m → isSpaceTab c = false := by
  intro l
  induction l with
  | nil => intro c m h; simp [collapseSpacesAux] at h
  | cons d rest ih =>
    intro c m h
    simp only [collapseSpacesAux] at h
    by_cases hd : isSpaceTab d = true
    · rw [if_pos hd] at h
      simp at h
      exact ih h
    · rw [if_neg hd] at h
      obtain ⟨rfl, -⟩ := List.cons.injEq .. ▸ h
      simpa using hd

theorem spacesAux_noAdjST : ∀ (l : List Char) (s : Bool),
    noAdjST (collapseSpacesAux s l) := by
  intro l
  induction l with
  | nil => intro s; simpa [collapseSpacesAux] using noAdjST_nil
  | cons d rest ih =>
    intro s
    by_cases hd : isSpaceTab d = true
    · cases s with
      | false =>
        rw [show collapseSpacesAux false (d :: rest)
            = ' ' :: collapseSpacesAux true rest from by
          simp [collapseSpacesAux, if_pos hd]]
        apply noAdjST_cons (ih true)
        rintro e t het ⟨-, he⟩
        rw [spacesAux_true_head het] at he
        exact Bool.false_ne_true he
      | true =>
        rw [show collapseSpacesAux true (d :: rest)
            = collapseSpacesAux true rest from by
          simp [collapseSpacesAux, if_pos hd]]
        exact ih true
    · rw [show collapseSpacesAux s (d :: rest)
          = d :: collapseSpacesAux false rest from by
        simp [collapseSpacesAux, if_neg hd]]
      apply noAdjST_cons (ih false)
      rintro e t het ⟨hde, -⟩
      exact hd hde

theorem nlAux_noAdjST : ∀ (l : List Char) (p : Nat), noAdjST l →
    noAdjST (collapseNLAux p l) := by
  intro l
  induction l with
  | nil =>
    intro p _
    apply noAdjST_of_all
    intro c hc
    have hc' : c = '\n' := emitNL_mem (by simpa [collapseNLAux] using hc)
    rw [hc']
    decide
  | cons c rest ih =>
    intro p hadj
    by_cases hc : c = '\n'
    · subst hc
      simp only [collapseNLAux, if_pos rfl]
      exact ih (p + 1) (noAdjST_tail hadj)
    · simp only [collapseNLAux, if_neg hc]
      apply noAdjST_append_allNL (fun x hx => emitNL_mem hx)
      apply noAdjST_cons (ih 0 (noAdjST_tail hadj))
      rintro d t hdt ⟨hcST, hdST⟩
      obtain ⟨t', ht'⟩ := nlAux_head_st hdt hdST
      exact hadj [] c d t' (by rw [ht']; rfl) ⟨hcST, hdST⟩

theorem mem_replaceCR {c : Char} {l : List Char} (h : c ∈ replaceCR l) :
    c ≠ '\r' := by
  obtain ⟨d, -, rfl⟩ := List.mem_map.1 h
  by_cases hd : d = '\r'
  · rw [if_pos hd]; decide
  · rw [if_neg hd]; exact hd

theorem replaceCR_id {l : List Char} (h : '\r' ∉ l) : replaceCR l = l := by
  induction l with
  | nil => rfl
  | cons c rest ih =>
    have hc : c ≠ '\r' := fun hc => h (hc ▸ List.mem_cons_self _ _)
    simp only [replaceCR, List.map_cons, if_neg hc]
    have := ih (fun hm => h (List.mem_cons_of_mem _ hm))
    simpa [replaceCR] using this

theorem spacesAux_id : ∀ (l : List Char), '\t' ∉ l → noAdjST l →
    collapseSpacesAux false l = l := by
  intro l
  induction l with
  | nil => intro _ _; rfl
  | cons c rest ih =>
    intro ht ha
    by_cases hc : isSpaceTab c = true
    · have hcsp : c = ' ' := by
        have hct : c ≠ '\t' := fun h => ht (h ▸ List.mem_cons_self _ _)
        rcases (by simpa [isSpaceTab] using hc : c = ' ' ∨ c = '\t') with h1 | h1
        · exact h1
        · exact absurd h1 hct
      subst hcsp
      rw [show collapseSpacesAux false (' ' :: rest)
          = ' ' :: collapseSpacesAux true rest from by
        simp [collapseSpacesAux, hc]]
      congr 1
      cases rest with
      | nil => rfl
      | cons d t =>
        have hd : isSpaceTab d = false := by
          by_contra hd'
          exact ha [] ' ' d t rfl ⟨hc, by simpa using hd'⟩
        rw [show collapseSpacesAux true (d :: t)
            = collapseSpacesAux false (d :: t) from by
          simp [collapseSpacesAux, hd]]
        exact ih (fun hm => ht (List.mem_cons_of_mem _ hm)) (noAdjST_tail ha)
    · rw [show collapseSpacesAux false (c :: rest)
          = c :: collapseSpacesAux false rest from by
        simp [collapseSpacesAux, hc]]
      rw [ih (fun hm => ht (List.mem_cons_of_mem _ hm)) (noAdjST_tail ha)]

theorem nlAux_id : ∀ (l : List Char) (p : Nat), p ≤ 2 →
    noTriple (List.replicate p '\n' ++ l) →
    collapseNLAux p l = List.replicate p '\n' ++ l := by
  intro l
  induction l with
  | nil =>
    intro p hp _
    simp [collapseNLAux, emitNL, if_neg (by omega : ¬ 3 ≤ p)]
  | cons c rest ih =>
    intro p hp hnt
    by_cases hc : c = '\n'
    · subst hc
      have hp2 : p ≤ 1 := by
        by_contra h'
        have hp2 : p = 2 := by omega
        subst hp2
        exact hnt [] rest (by simp [List.replicate])
      have heq : List.replicate (p + 1) '\n' ++ rest
          = List.replicate p '\n' ++ '\n' :: rest := by
        simp [List.replicate_succ']
      rw [show collapseNLAux p ('\n' :: rest) = collapseNLAux (p + 1) rest from by
        simp [collapseNLAux]]
      rw [ih (p + 1) (by omega) (by rw [heq]; exact hnt)]
      exact heq
    · simp only [collapseNLAux, if_neg hc]
      rw [emitNL, if_neg (by omega : ¬ 3 ≤ p)]
      have hrest : noTriple rest := by
        apply noTriple_middle (u := List.replicate p '\n' ++ [c]) (v := [])
        simpa using hnt
      rw [ih 0 (by omega) (by simpa using hrest)]
      simp

theorem dropWhile_id {p : Char → Bool} {l : List Char}
    (h : ∀ c t, l = c :: t → p c = false) : l.dropWhile p = l := by
  cases l with
  | nil => rfl
  | cons c t => simp [List.dropWhile_cons, h c t rfl]

theorem trimJs_id {l : List Char}
    (h1 : ∀ c t, l = c :: t → isJsWs c = false)
    (h2 : ∀ c t, l = t ++ [c] → isJsWs c = false) : trimJs l = l := by
  unfold trimJs
  rw [dropWhile_id h1]
  rw [dropWhile_id (p := isJsWs) ?_, List.reverse_reverse]
  intro c t hrev
  apply h2 c t.reverse
  have := congrArg List.reverse hrev
  simpa using this

theorem normalizeText_noCR (t : List Char) : '\r' ∉ normalizeText t := by
  intro h
  have h1 := mem_trimJs h
  rcases mem_nlAux 0 _ h1 with h2 | h2
  · exact absurd h2 (by decide)
  · rcases mem_spacesAux false _ h2 with h3 | h3
    · exact absurd h3 (by decide)
    · exact mem_replaceCR h3 rfl

theorem normalizeText_noTab (t : List Char) : '\t' ∉ normalizeText t := by
  intro h
  have h1 := mem_trimJs h
  rcases mem_nlAux 0 _ h1 with h2 | h2
  · exact absurd h2 (by decide)
  · exact spacesAux_noTab false _ h2 rfl

theorem normalizeText_noAdjST (t : List Char) : noAdjST (normalizeText t) := by
  obtain ⟨u, v, huv⟩ :=
    trimJs_decomp (collapseNewlines (collapseSpaces (replaceCR t)))
  apply noAdjST_middle (u := u) (v := v)
  rw [show u ++ normalizeText t ++ v
      = collapseNewlines (collapseSpaces (replaceCR t)) from by
    rw [normalizeText]; exact huv.symm]
  exact nlAux_noAdjST _ 0 (spacesAux_noAdjST _ false)

theorem normalizeText_noTriple (t : List Char) : noTriple (normalizeText t) := by
  obtain ⟨u, v, huv⟩ :=
    trimJs_decomp (collapseNewlines (collapseSpaces (replaceCR t)))
  apply noTriple_middle (u := u) (v := v)
  rw [show u ++ normalizeText t ++ v
      = collapseNewlines (collapseSpaces (replaceCR t)) from by
    rw [normalizeText]; exact huv.symm]
  exact nlAux_noTriple _ 0

theorem normalizeText_head {t : List Char} {c : Char} {m : List Char}
    (h : normalizeText t = c :: m) : isJsWs c = false :=
  trimJs_head (l := collapseNewlines (collapseSpaces (replaceCR t))) h

theorem normalizeText_last {t : List Char} {c : Char} {m : List Char}
    (h : normalizeText t = m ++ [c]) : isJsWs c = false :=
  trimJs_last (l := collapseNewlines (collapseSpaces (replaceCR t))) h

theorem normalizeText_idem_aux (m : List Char)
    (hCR : '\r' ∉ m) (hTab : '\t' ∉ m) (hAdj : noAdjST m) (hNT : noTriple m)
    (hHead : ∀ c t', m = c :: t' → isJsWs c = false)
    (hLast : ∀ c t', m = t' ++ [c] → isJsWs c = false) :
    normalizeText m = m := by
  rw [normalizeText, replaceCR_id hCR]
  rw [show collapseSpaces m = m from spacesAux_id m hTab hAdj]
  rw [show collapseNewlines m = m from by
    have := nlAux_id m 0 (by omega) (by simpa using hNT)
    simpa [collapseNewlines] using this]
  exact trimJs_id hHead hLast

theorem spacesAux_append_notST {c : Char} (hc : isSpaceTab c = false) :
    ∀ (l1 : List Char) (s : Bool) (l2 : List Char),
    collapseSpacesAux s (l1 ++ c :: l2)
      = collapseSpacesAux s l1 ++ c :: collapseSpacesAux false l2 := by
  intro l1
  induction l1 with
  | nil =>
    intro s l2
    simp [collapseSpacesAux, hc]
  | cons d t ih =>
    intro s l2
    by_cases hd : isSpaceTab d = true
    · simp only [List.cons_append, collapseSpacesAux, if_pos hd, List.append_eq]
      rw [ih true l2, List.append_assoc]
    · simp only [List.cons_append, collapseSpacesAux, if_neg hd, List.append_eq]
      rw [ih false l2]

theorem spacesAux_allNotST : ∀ (l1 : List Char),
    (∀ x ∈ l1, isSpaceTab x = false) → ∀ l2 : List Char,
    collapseSpacesAux false (l1 ++ l2) = l1 ++ collapseSpacesAux false l2 := by
  intro l1
  induction l1 with
  | nil => intro _ l2; rfl
  | cons d t ih =>
    intro h l2
    have hd : isSpaceTab d = false := h d (List.mem_cons_self _ _)
    simp only [List.cons_append, collapseSpacesAux,
      if_neg (by simp [hd] : ¬ isSpaceTab d = true), List.append_eq]
    rw [ih (fun x hx => h x (List.mem_cons_of_mem _ hx)) l2]

theorem nlAux_append_notNL {c : Char} (hc : c ≠ '\n') :
    ∀ (l1 : List Char) (p : Nat) (l2 : List Char),
    collapseNLAux p (l1 ++ c :: l2)
      = collapseNLAux p (l1 ++ [c]) ++ collapseNLAux 0 l2 := by
  intro l1
  induction l1 with
  | nil =>
    intro p l2
    simp only [List.nil_append, collapseNLAux, if_neg hc]
    simp [collapseNLAux, emitNL]
  | cons d t ih =>
    intro p l2
    by_cases hd : d = '\n'
    · subst hd
      rw [show ('\n' :: t) ++ c :: l2 = '\n' :: (t ++ c :: l2) from rfl,
        show ('\n' :: t) ++ [c] = '\n' :: (t ++ [c]) from rfl]
      rw [show ∀ m, collapseNLAux p ('\n' :: m) = collapseNLAux (p + 1) m from
        fun m => by simp [collapseNLAux]]
      exact ih (p + 1) l2
    · simp only [List.cons_append, collapseNLAux, if_neg hd, List.append_eq]
      rw [ih 0 l2]
      simp

theorem nlAux_run {c : Char} (hc : c ≠ '\n') :
    ∀ (k p : Nat) (m : List Char),
    collapseNLAux p (List.replicate k '\n' ++ c :: m)
      = emitNL (p + k) ++ c :: collapseNLAux 0 m := by
  intro k
  induction k with
  | zero =>
    intro p m
    simp [collapseNLAux, if_neg hc]
  | succ k ih =>
    intro p m
    rw [show List.replicate (k + 1) '\n' ++ c :: m
        = '\n' :: (List.replicate k '\n' ++ c :: m) from by
      simp [List.replicate_succ]]
    rw [show ∀ w, collapseNLAux p ('\n' :: w) = collapseNLAux (p + 1) w from
      fun w => by simp [collapseNLAux]]
    rw [ih (p + 1) m]
    congr 2
    omega

theorem nlAux_snoc {c : Char} (hc : c ≠ '\n') :
    ∀ (l : List Char) (p : Nat),
    ∃ pre, collapseNLAux p (l ++ [c]) = pre ++ [c] := by
  intro l
  induction l with
  | nil =>
    intro p
    refine ⟨emitNL p, ?_⟩
    simp [collapseNLAux, if_neg hc, emitNL]
  | cons d t ih =>
    intro p
    by_cases hd : d = '\n'
    · subst hd
      simp only [List.cons_append, collapseNLAux, if_pos rfl]
      exact ih (p + 1)
    · obtain ⟨pre, hp⟩ := ih 0
      refine ⟨emitNL p ++ d :: pre, ?_⟩
      simp only [List.cons_append, collapseNLAux, if_neg hd, List.append_eq]
      rw [hp]
      simp

theorem dropWhile_mid {x : Char} (hx : isJsWs x = false) (u M : List Char) :
    ∃ u1, (u ++ x :: M).dropWhile isJsWs = u1 ++ x :: M := by
  rw [List.dropWhile_append]
  split
  · exact ⟨[], by simp [List.dropWhile_cons, hx]⟩
  · exact ⟨u.dropWhile isJsWs, rfl⟩

theorem trimJs_mid {x y : Char} (hx : isJsWs x = false) (hy : isJsWs y = false)
    (u v : List Char) :
    ∃ u' v', trimJs (u ++ x :: '\n' :: '\n' :: y :: v)
      = u' ++ x :: '\n' :: '\n' :: y :: v' := by
  unfold trimJs
  obtain ⟨u1, h1⟩ := dropWhile_mid hx u ('\n' :: '\n' :: y :: v)
  rw [h1]
  have hrev : (u1 ++ x :: '\n' :: '\n' :: y :: v).reverse
      = v.reverse ++ y :: '\n' :: '\n' :: x :: u1.reverse := by
    simp
  rw [hrev]
  obtain ⟨v1, h2⟩ := dropWhile_mid hy v.reverse ('\n' :: '\n' :: x :: u1.reverse)
  rw [h2]
  refine ⟨u1, v1.reverse, ?_⟩
  simp

theorem normalizeText_flanked {a b : List Char} {x y : Char} {k : Nat}
    (hk : 3 ≤ k) (hx : isJsWs x = false) (hy : isJsWs y = false) :
    ∃ u v, normalizeText (a ++ [x] ++ List.replicate k '\n' ++ [y] ++ b)
      = u ++ x :: '\n' :: '\n' :: y :: v := by
  obtain ⟨hxr, hxn, -, -⟩ := notWs_ne hx
  obtain ⟨hyr, hyn, -, -⟩ := notWs_ne hy
  have hxst := notWs_notST hx
  have hyst := notWs_notST hy
  have hR : ∀ z ∈ List.replicate k '\n', isSpaceTab z = false := by
    intro z hz
    rw [List.eq_of_mem_replicate hz]
    decide
  have s1 : replaceCR (a ++ [x] ++ List.replicate k '\n' ++ [y] ++ b)
      = replaceCR a ++ x :: (List.replicate k '\n' ++ y :: replaceCR b) := by
    simp [replaceCR, if_neg hxr, if_neg hyr]
  have s2 : collapseSpacesAux false
        (replaceCR a ++ x :: (List.replicate k '\n' ++ y :: replaceCR b))
      = collapseSpacesAux false (replaceCR a)
        ++ x :: (List.replicate k '\n'
          ++ y :: collapseSpacesAux false (replaceCR b)) := by
    rw [spacesAux_append_notST hxst]
    rw [spacesAux_allNotST (List.replicate k '\n') hR (y :: replaceCR b)]
    rw [show collapseSpacesAux false (y :: replaceCR b)
        = y :: collapseSpacesAux false (replaceCR b) from by
      have := spacesAux_append_notST hyst [] false (replaceCR b)
      simpa [collapseSpacesAux] using this]
  obtain ⟨pre, hpre⟩ := nlAux_snoc hxn (collapseSpacesAux false (replaceCR a)) 0
  have s3 : collapseNLAux 0 (collapseSpacesAux false (replaceCR a)
        ++ x :: (List.replicate k '\n'
          ++ y :: collapseSpacesAux false (replaceCR b)))
      = pre ++ x :: '\n' :: '\n'
        :: y :: collapseNLAux 0 (collapseSpacesAux false (replaceCR b)) := by
    rw [nlAux_append_notNL hxn]
    rw [nlAux_run hyn k 0]
    rw [hpre]
    rw [show emitNL (0 + k) = ['\n', '\n'] from by
      unfold emitNL
      rw [if_pos (by omega : 3 ≤ 0 + k)]]
    simp
  have hmain : normalizeText (a ++ [x] ++ List.replicate k '\n' ++ [y] ++ b)
      = trimJs (pre ++ x :: '\n' :: '\n'
        :: y :: collapseNLAux 0 (collapseSpacesAux false (replaceCR b))) := by
    rw [normalizeText, s1, collapseSpaces, s2, collapseNewlines, s3]
  rw [hmain]
  exact trimJs_mid hx hy pre _

/-! ## Behaviour of the fragment-selection loop -/

theorem pickLoop_some {paras : List (List Char)} {choices : Nat → Nat} :
    ∀ (fuel attempt : Nat) (frag : List Char),
    pickLoop paras choices attempt fuel = some frag →
    looksLikeJunk frag = false ∧ frag.length ≤ 1600 := by
  intro fuel
  induction fuel with
  | zero => intro attempt frag h; simp [pickLoop] at h
  | succ fuel ih =>
    intro attempt frag h
    simp only [pickLoop] at h
    by_cases hj : looksLikeJunk ((windowAt paras
        (choices attempt % paras.length)).take 1600) = true
    · rw [if_pos hj] at h
      exact ih (attempt + 1) frag h
    · rw [if_neg hj] at h
      obtain rfl := (Option.some.injEq .. ▸ h).symm
      refine ⟨by simpa using hj, ?_⟩
      calc ((windowAt paras (choices attempt % paras.length)).take 1600).length
      _ ≤ 1600 := by simp
  
theorem pickLoop_none {paras : List (List Char)} {choices : Nat → Nat}
    (hpos : 0 < paras.length)
    (hall : ∀ i, i < paras.length →
      looksLikeJunk ((windowAt paras i).take 1600) = true) :
    ∀ (fuel attempt : Nat), pickLoop paras choices attempt fuel = none := by
  intro fuel
  induction fuel with
  | zero => intro attempt; rfl
  | succ fuel ih =>
    intro attempt
    simp only [pickLoop]
    rw [if_pos (hall _ (Nat.mod_lt _ hpos))]
    exact ih (attempt + 1)

/-! ## Behaviour of the model-query loop and the run orchestrator -/

theorem queryLoop_step {env : Env} {bookName fragment : List Char}
    {i fuel : Nat} (h : advances env fragment i) :
    queryLoop env bookName fragment i (fuel + 1)
      = queryLoop env bookName fragment (i + 1) fuel := by
  obtain ⟨out, hout, hcase⟩ := h
  simp only [queryLoop, hout]
  rcases hcase with rfl | hpn | ⟨j, hpj, hcf⟩
  · rw [if_pos rfl]
  · by_cases hs : out = SKIPresp
    · rw [if_pos hs]
    · rw [if_neg hs, hpn]
  · by_cases hs : out = SKIPresp
    · rw [if_pos hs]
    · rw [if_neg hs, hpj]
      simp only [if_neg (by simp [hcf] : ¬ citaTruthy j = true)]

theorem queryLoop_all_advance {env : Env} {bookName fragment : List Char} :
    ∀ (fuel i : Nat), (∀ k, i ≤ k → k < i + fuel → advances env fragment k) →
    queryLoop env bookName fragment i fuel = ([], .ok false) := by
  intro fuel
  induction fuel with
  | zero => intro i _; rfl
  | succ fuel ih =>
    intro i h
    rw [queryLoop_step (h i le_rfl (by omega))]
    exact ih (i + 1) (fun k hk1 hk2 => h k (by omega) (by omega))

theorem queryLoop_success {env : Env} {bookName fragment out : List Char}
    {j : JsonObj} {fp : List Char} :
    ∀ (fuel i k : Nat), i ≤ k → k < i + fuel →
    (∀ m, i ≤ m → m < k → advances env fragment m) →
    env.askModel fragment k = .ok out → out ≠ SKIPresp →
    env.parseJson out = some j → citaTruthy j = true →
    env.appendLog = .ok fp →
    queryLoop env bookName fragment i fuel
      = ([.fileAppend fp (citaVal j) j.reflexion bookName,
          .notify successTitle (successMsg j bookName fp)], .ok true) := by
  intro fuel
  induction fuel with
  | zero => intro i k h1 h2; omega
  | succ fuel ih =>
    intro i k h1 h2 hadv hask hskip hparse hcita happ
    by_cases hik : i = k
    · subst hik
      simp only [queryLoop, hask, if_neg hskip, hparse, if_pos hcita, happ]
    · rw [queryLoop_step (hadv i le_rfl (by omega))]
      exact ih (i + 1) k (by omega) (by omega)
        (fun m hm1 hm2 => hadv m (by omega) hm2) hask hskip hparse hcita happ

theorem runBody_frontmatter {env : Env} {pdfs : List (List Char)}
    {txt frag : List Char}
    (hp : env.listPdfs = .ok pdfs) (hn : pdfs.length ≠ 0)
    (he : env.extractText (pdfs.getD (env.pickIndex % pdfs.length) []) = .ok txt)
    (hf : pickFragment env.fragChoices txt = some frag)
    (hadv : ∀ k, k < 6 → advances env frag k) :
    runBody env = ([.notify oraculoTitle (frontMatterMsg
      (jsBasename (pdfs.getD (env.pickIndex % pdfs.length) [])))], .ok ()) := by
  simp only [runBody, hp, if_neg hn, he, hf]
  rw [queryLoop_all_advance 6 0 (fun k hk1 hk2 => hadv k (by omega))]
  simp

theorem runOnce_catch (env : Env) :
    (∃ u, (runBody env).2 = .ok u ∧ runOnce env = (runBody env).1) ∨
    (∃ e, (runBody env).2 = .error e ∧
      runOnce env = (runBody env).1 ++ [.notify errorTitle e]) := by
  unfold runOnce
  rcases h : runBody env with ⟨evs, r⟩
  rcases r with e | u
  · right
    exact ⟨e, rfl, rfl⟩
  · left
    exact ⟨u, rfl, rfl⟩

/-! ## Substring lemmas for the keyword rule -/

theorem startsWith_self_append : ∀ (pat v : List Char),
    startsWithChars pat (pat ++ v) = true := by
  intro pat
  induction pat with
  | nil => intro v; rfl
  | cons p ps ih =>
    intro v
    simp only [List.cons_append, startsWithChars]
    simp [ih v]

theorem jsIncludes_nil : ∀ s : List Char, jsIncludes [] s = true := by
  intro s
  cases s with
  | nil => rfl
  | cons c rest => simp [jsIncludes, startsWithChars]

theorem jsIncludes_mid : ∀ (a pat b : List Char),
    jsIncludes pat (a ++ pat ++ b) = true := by
  intro a pat b
  induction a with
  | nil =>
    cases pat with
    | nil => simpa using jsIncludes_nil b
    | cons p ps =>
      simp only [List.nil_append, List.cons_append, jsIncludes, List.append_eq]
      rw [show startsWithChars (p :: ps) (p :: (ps ++ b)) = true from by
        have := startsWith_self_append (p :: ps) b
        simpa using this]
      simp
  | cons c a' ih =>
    simp only [List.cons_append, jsIncludes, List.append_eq]
    rw [ih]
    simp

/-! ## Claim theorems -/

/-- C1: for every input document text and every sequence of random index
choices, if the Fragment Selector (`pickFragment`) returns a non-`none`
fragment, then that fragment is classified usable by the Junk Classifier
(`looksLikeJunk` returns `false` on it) and its length is at most 1600
characters. -/
theorem claim_C1_fragment_usable (choices : Nat → Nat)
    (fullText frag : List Char)
    (h : pickFragment choices fullText = some frag) :
    looksLikeJunk frag = false ∧ frag.length ≤ 1600 := by
  simp only [pickFragment] at h
  by_cases h1 : (normalizeText fullText).length < 800
  · rw [if_pos h1] at h
    simp at h
  · rw [if_neg h1] at h
    by_cases h2 : (parasOf (normalizeText fullText)).length < 5
    · rw [if_pos h2] at h
      simp at h
    · rw [if_neg h2] at h
      exact pickLoop_some 12 0 frag h

/-- Witness for C1: on a 1008-character 5-paragraph document of plain
prose, the selector returns the window of paragraphs 0-2, and the theorem
yields that it is usable and within 1600 characters. -/
theorem claim_C1_witness :
    looksLikeJunk witFragC1 = false ∧ witFragC1.length ≤ 1600 :=
  claim_C1_fragment_usable (fun _ => 0) witDocC1 witFragC1 (by decide)

/-- C3: a document whose normalized length is under 800 yields `none`
from the Fragment Selector regardless of paragraph count, and a document
with fewer than 5 non-empty trimmed paragraphs (split on double newline)
also yields `none`. -/
theorem claim_C3_small_doc_none (choices : Nat → Nat) (fullText : List Char) :
    ((normalizeText fullText).length < 800 →
      pickFragment choices fullText = none)
    ∧ ((parasOf (normalizeText fullText)).length < 5 →
      pickFragment choices fullText = none) := by
  constructor
  · intro h
    simp only [pickFragment]
    rw [if_pos h]
  · intro h
    simp only [pickFragment]
    by_cases h1 : (normalizeText fullText).length < 800
    · rw [if_pos h1]
    · rw [if_neg h1, if_pos h]

/-- Witness for C3: a 799-character document, and a 900-character
document with only 4 paragraphs, both yield `none`. -/
theorem claim_C3_witness :
    pickFragment (fun _ => 0) witDocC3a = none
    ∧ pickFragment (fun _ => 0) witDocC3b = none :=
  ⟨(claim_C3_small_doc_none (fun _ => 0) witDocC3a).1 (by decide),
   (claim_C3_small_doc_none (fun _ => 0) witDocC3b).2 (by decide)⟩

/-- C4: if every sampleable window (joined with a blank-line separator
and truncated to 1600 characters) is classified junk, the Fragment
Selector returns `none` for every possible sequence of random index
choices, the 12 attempts having been exhausted. -/
theorem claim_C4_all_junk_none (choices : Nat → Nat) (fullText : List Char)
    (h : ∀ i, i < (parasOf (normalizeText fullText)).length →
      looksLikeJunk
        ((windowAt (parasOf (normalizeText fullText)) i).take 1600) = true) :
    pickFragment choices fullText = none := by
  simp only [pickFragment]
  by_cases h1 : (normalizeText fullText).length < 800
  · rw [if_pos h1]
  · rw [if_neg h1]
    by_cases h2 : (parasOf (normalizeText fullText)).length < 5
    · rw [if_pos h2]
    · rw [if_neg h2]
      exact pickLoop_none (by omega) h 12 0

/-- Witness for C4: a document whose only 5 paragraphs all contain
"copyright" returns `none` (here under the identity choice sequence). -/
theorem claim_C4_witness : pickFragment (fun n => n) witDocC4 = none :=
  claim_C4_all_junk_none (fun n => n) witDocC4 (by decide)

/-- C5 counterexample: the input consisting of exactly three newlines
contains a sequence of 3 or more newlines, yet the Normalizer output (the
empty string, because the final trim removes the whole collapsed run)
contains no two consecutive newlines — refuting the claim's "contains
exactly 2 consecutive newlines where 3 or more existed". -/
theorem claim_C5_counterexample :
    "\n\n\n".toList = List.replicate 3 '\n'
    ∧ normalizeText "\n\n\n".toList = []
    ∧ ∀ u v : List Char, normalizeText "\n\n\n".toList ≠ u ++ '\n' :: '\n' :: v := by
  refine ⟨by decide, by decide, ?_⟩
  intro u v h
  rw [show normalizeText "\n\n\n".toList = [] from by decide] at h
  exact absurd h.symm (by simp)

/-- C5 (amended): the Normalizer output contains no carriage return, no
tab, no two adjacent space/tab characters, is trimmed at both ends, and
contains no run of 3 or more consecutive newlines; and wherever the input
contains a run of 3 or more newlines flanked on both sides by
non-whitespace characters (so that the run is not removed by the final
trim), the output contains that flanking pair separated by exactly 2
newlines.  (The original claim's "contains exactly 2 consecutive newlines
where 3 or more existed" fails when the run sits at the boundary and is
trimmed away — see the counterexample.) -/
theorem claim_C5_amended (t : List Char) :
    '\r' ∉ normalizeText t
    ∧ '\t' ∉ normalizeText t
    ∧ noAdjST (normalizeText t)
    ∧ (∀ c m, normalizeText t = c :: m → isJsWs c = false)
    ∧ (∀ c m, normalizeText t = m ++ [c] → isJsWs c = false)
    ∧ noTriple (normalizeText t)
    ∧ (∀ (a b : List Char) (x y : Char) (k : Nat),
        t = a ++ [x] ++ List.replicate k '\n' ++ [y] ++ b → 3 ≤ k →
        isJsWs x = false → isJsWs y = false →
        ∃ u v, normalizeText t = u ++ x :: '\n' :: '\n' :: y :: v) := by
  refine ⟨normalizeText_noCR t, normalizeText_noTab t, normalizeText_noAdjST t,
    fun c m h => normalizeText_head h, fun c m h => normalizeText_last h,
    normalizeText_noTriple t, ?_⟩
  rintro a b x y k rfl hk hx hy
  exact normalizeText_flanked hk hx hy

/-- Witness for C5: on the input "a\n\n\n\nb", the interior run of 4
newlines (flanked by the non-whitespace characters a and b) survives as
exactly 2 newlines in the output. -/
theorem claim_C5_witness :
    ∃ u v, normalizeText "a\n\n\n\nb".toList
      = u ++ 'a' :: '\n' :: '\n' :: 'b' :: v :=
  (claim_C5_amended "a\n\n\n\nb".toList).2.2.2.2.2.2 [] [] 'a' 'b' 4
    (by decide) (by decide) (by decide) (by decide)

/-- C6: a fragment of exactly 10 non-empty lines each of trimmed length
under 30 and with no junk-keyword match is classified junk by the Junk
Classifier, specifically satisfying the line-shape rule; and a fragment
of 10 non-empty lines each of trimmed length at least 40 is not rejected
by the line-shape rule. -/
theorem claim_C6_line_shape (frag1 frag2 : List Char)
    (h1len : (linesOf frag1).length = 10)
    (h1short : ∀ l ∈ linesOf frag1, (trimJs l).length < 30)
    (h1kw : ∀ pat ∈ junkHints, jsIncludes pat (frag1.map jsToLower) = false)
    (h2len : (linesOf frag2).length = 10)
    (h2long : ∀ l ∈ linesOf frag2, 40 ≤ (trimJs l).length) :
    (looksLikeJunk frag1 = true ∧ lineShapeRule frag1 = true)
    ∧ lineShapeRule frag2 = false := by
  have hshape1 : lineShapeRule frag1 = true := by
    simp only [lineShapeRule]
    rw [show (linesOf frag1).filter (fun l => decide ((trimJs l).length < 30))
        = linesOf frag1 from
      List.filter_eq_self.2 (fun l hl => by simp [h1short l hl])]
    rw [h1len]
    decide
  refine ⟨⟨?_, hshape1⟩, ?_⟩
  · simp only [looksLikeJunk]
    split
    · rfl
    · split
      · rfl
      · split
        · rfl
        · exact hshape1
  · simp only [lineShapeRule]
    rw [show (linesOf frag2).filter (fun l => decide ((trimJs l).length < 30))
        = [] from
      List.filter_eq_nil.2 (fun l hl => by
        have := h2long l hl
        simp
        omega)]
    rw [h2len]
    decide

/-- Witness for C6: 10 lines of 25 characters each are junk via the
line-shape rule; the same 10 lines grown to 40 characters each are not
rejected by it. -/
theorem claim_C6_witness :
    (looksLikeJunk witFragC6a = true ∧ lineShapeRule witFragC6a = true)
    ∧ lineShapeRule witFragC6b = false :=
  claim_C6_line_shape witFragC6a witFragC6b (by decide) (by decide)
    (by decide) (by decide) (by decide)

/-- C7: every fragment containing the substring "ISBN" in any letter
case — formalized as containing a segment whose lowercasing is "isbn" —
is classified junk by the Junk Classifier, regardless of length. -/
theorem claim_C7_isbn_junk (frag u w v : List Char)
    (hsplit : frag = u ++ w ++ v)
    (hw : w.map jsToLower = "isbn".toList) :
    looksLikeJunk frag = true := by
  have hinc : jsIncludes ("isbn".toList) (frag.map jsToLower) = true := by
    subst hsplit
    rw [List.map_append, List.map_append, hw]
    exact jsIncludes_mid (u.map jsToLower) "isbn".toList (v.map jsToLower)
  have hany : junkHints.any
      (fun hh => jsIncludes hh (frag.map jsToLower)) = true :=
    List.any_eq_true.2 ⟨"isbn".toList, by decide, hinc⟩
  simp only [looksLikeJunk]
  by_cases hl : frag.length < 220
  · rw [if_pos hl]
  · rw [if_neg hl, if_pos hany]

/-- Witness for C7: the 4-character fragment "IsBn" is junk. -/
theorem claim_C7_witness : looksLikeJunk "IsBn".toList = true :=
  claim_C7_isbn_junk "IsBn".toList [] "IsBn".toList [] (by simp) (by decide)

/-- C2: in the orchestrator's model-query loop at most 6 attempts are
made.  (1) If attempts 0..5 all advance — the reply was the skip sentinel
"SKIP" (the same fragment is resent), failed JSON parse, or lacked a
truthy quote field — the loop ends with no log event and no success
notification.  (2) A reply with a valid quote field at attempt k < 6,
after advancing attempts, terminates the loop with exactly one log append
and one success notification.  (3) Exhausting all 6 attempts makes the
run emit the soft "front matter" notification and finish with `.ok`, not
an error. -/
theorem claim_C2_query_loop (env : Env) (bookName fragment : List Char) :
    ((∀ k, k < 6 → advances env fragment k) →
      queryLoop env bookName fragment 0 6 = ([], .ok false))
    ∧ (∀ (k : Nat) (out fp : List Char) (j : JsonObj), k < 6 →
        (∀ m, m < k → advances env fragment m) →
        env.askModel fragment k = .ok out → out ≠ SKIPresp →
        env.parseJson out = some j → citaTruthy j = true →
        env.appendLog = .ok fp →
        queryLoop env bookName fragment 0 6
          = ([.fileAppend fp (citaVal j) j.reflexion bookName,
              .notify successTitle (successMsg j bookName fp)], .ok true))
    ∧ (∀ (pdfs : List (List Char)) (txt frag : List Char),
        env.listPdfs = .ok pdfs → pdfs.length ≠ 0 →
        env.extractText (pdfs.getD (env.pickIndex % pdfs.length) [])
          = .ok txt →
        pickFragment env.fragChoices txt = some frag →
        (∀ k, k < 6 → advances env frag k) →
        runBody env = ([.notify oraculoTitle (frontMatterMsg
          (jsBasename (pdfs.getD (env.pickIndex % pdfs.length) [])))],
          .ok ())) := by
  refine ⟨?_, ?_, ?_⟩
  · intro h
    exact queryLoop_all_advance 6 0 (fun k hk1 hk2 => h k (by omega))
  · intro k out fp j hk hpre hask hskip hparse hcita happ
    exact queryLoop_success 6 0 k (by omega) (by omega)
      (fun m hm1 hm2 => hpre m hm2) hask hskip hparse hcita happ
  · intro pdfs txt frag hp hn hex hf hadv
    exact runBody_frontmatter hp hn hex hf hadv

/-- Witness for C2: in a world answering "SKIP" forever the loop ends
empty-handed after its 6 attempts with no event; in a world whose first
reply parses to a truthy quote the loop ends successfully with the log
append and the success notification. -/
theorem claim_C2_witness :
    queryLoop envSkip [] [] 0 6 = ([], .ok false)
    ∧ queryLoop envOK [] [] 0 6
      = ([.fileAppend ['l', 'o', 'g'] (citaVal jOK) jOK.reflexion [],
          .notify successTitle (successMsg jOK [] ['l', 'o', 'g'])],
          .ok true) := by
  constructor
  · exact (claim_C2_query_loop envSkip [] []).1
      (fun k hk => ⟨SKIPresp, rfl, Or.inl rfl⟩)
  · exact (claim_C2_query_loop envOK [] []).2.1 0 ['o', 'k'] ['l', 'o', 'g']
      jOK (by omega) (fun m hm => absurd hm (Nat.not_lt_zero m)) rfl
      (by decide) rfl (by decide) rfl

/-- C8: every failure raised inside a single run is caught at the top
level of `runOnce` and converted into an error notification appended
after the events that had already happened; no failure propagates out of
`runOnce` (its result is always a plain event list), so the scheduler's
tick n + 1 always consists of the first n runs followed by a fresh run,
regardless of earlier outcomes. -/
theorem claim_C8_errors_caught :
    (∀ env : Env,
      (∃ u, (runBody env).2 = .ok u ∧ runOnce env = (runBody env).1) ∨
      (∃ e, (runBody env).2 = .error e ∧
        runOnce env = (runBody env).1 ++ [.notify errorTitle e]))
    ∧ (∀ (envs : Nat → Env) (n : Nat),
        schedulerTrace envs (n + 1)
          = schedulerTrace envs n ++ [runOnce (envs n)]) := by
  constructor
  · exact runOnce_catch
  · intro envs n
    simp [schedulerTrace, List.range_succ]

/-- C9: a model reply that parses as JSON but whose quote field `cita` is
the empty string or null is treated as a failed attempt: it consumes one
of the 6 attempts and the loop continues with the next attempt, instead
of terminating as a success. -/
theorem claim_C9_falsy_cita_retries (env : Env)
    (bookName fragment out : List Char) (j : JsonObj) (i fuel : Nat)
    (h1 : env.askModel fragment i = .ok out) (h2 : out ≠ SKIPresp)
    (h3 : env.parseJson out = some j)
    (h4 : j.cita = some (JVal.jstr []) ∨ j.cita = some JVal.jnull) :
    queryLoop env bookName fragment i (fuel + 1)
      = queryLoop env bookName fragment (i + 1) fuel := by
  apply queryLoop_step
  refine ⟨out, h1, Or.inr (Or.inr ⟨j, h3, ?_⟩)⟩
  rcases h4 with h4 | h4 <;> simp [citaTruthy, h4, JVal.truthy]

/-- Witness for C9: in a world whose reply parses to a JSON object with
an empty-string quote field, attempt 0 of the loop advances to
attempt 1. -/
theorem claim_C9_witness :
    queryLoop env9 [] [] 0 6 = queryLoop env9 [] [] 1 5 :=
  claim_C9_falsy_cita_retries env9 [] [] ['x'] jEmptyCita 0 5 rfl
    (by decide) rfl (Or.inl rfl)

/-- C10: the Text Normalizer is idempotent — normalizing an already
normalized text changes nothing. -/
theorem claim_C10_normalizer_idempotent (t : List Char) :
    normalizeText (normalizeText t) = normalizeText t :=
  normalizeText_idem_aux (normalizeText t)
    (normalizeText_noCR t) (normalizeText_noTab t)
    (normalizeText_noAdjST t) (normalizeText_noTriple t)
    (fun c t' h => normalizeText_head h) (fun c t' h => normalizeText_last h)
